import Mathlib

/-!
# Verification of the hybrid retrieval core

This file gives a shallow embedding of the retrieval core of the
computer-networking-assistant repository and proves the specified
properties about it.

Embedded source:

* `findRelevantContent` (the spec's `retrieveCorpus`) from
  `src/lib/ai/embedding.ts`: hybrid vector + lexical retrieval with
  reciprocal-rank fusion, identifier short-circuiting, and a pure lexical
  fallback when the corpus has no embeddings.
* the long-term memory retrieval block (the spec's `retrieveMemory`) from
  `src/app/api/rag-chapter1/route.ts`.

Modelling conventions:

* The external world (document store, embedder, Atlas vector search) is an
  explicit environment record.  Fallible external calls are `Except` values;
  the TypeScript `try`/`catch` blocks become `match`es on those values, so the
  embedded function is total exactly as the original never propagates
  exceptions.
* Floating-point scores (`0.6`, `0.4`, `0.8`, `0.7`, `1/61`, ...) are modelled
  as exact rationals, following the spec's exact-value requirements.
* MongoDB `$regex` queries are built by the source only as alternations of
  literal tokens matched case-insensitively and unanchored; they are modelled
  as case-insensitive substring tests, with the MongoDB behaviour that an
  empty pattern matches every document.
* JavaScript `Map` objects (insertion-ordered, `set` replaces in place) are
  modelled as association lists with `mapGet`/`mapSet`.
* `Array.prototype.sort` (stable, by the comparator `b.score - a.score`) is
  modelled by a stable descending insertion sort; stability and sortedness are
  proved below, which characterises the JavaScript result uniquely.
* `String.prototype.split(/\s+/)` differs from splitting at every single
  whitespace character only by empty segments, which the source immediately
  discards with its `length > 2` filter; the embedding splits at every
  whitespace character.
* Mongo's `.limit(n)` is modelled as `List.take n`, faithful for `n > 0`
  (the contract of the retrieval core requires `limit > 0`).
-/

/-- A stored passage of the textbook corpus (a `resources` document):
raw text content and an optional persistent identifier. -/
structure Passage where
  content : String
  id : Option String
deriving DecidableEq, Repr

/-- One hit returned by the Atlas `$vectorSearch` aggregation over the
`embeddings` collection: chunk content and the optional id of the resource
the chunk came from. -/
structure VecHit where
  content : String
  resourceId : Option String
deriving DecidableEq, Repr

/-- The result shape returned by `findRelevantContent`:
`{ name, similarity, resourceId }`. -/
structure RankedResult where
  name : String
  similarity : ℚ
  resourceId : Option String
deriving DecidableEq, Repr

/-- The external world of `findRelevantContent`: the count of embedded
documents, the lexical document store, the outcome of the
`generateEmbedding` call (whose failure is caught only by the outermost
handler) and the outcome of the `$vectorSearch` aggregation as a function of
the `numCandidates` and `limit` parameters passed to it (whose failure is
caught locally). -/
structure Env where
  embeddingCount : Nat
  resources : List Passage
  embedOutcome : Except Unit Unit
  vectorOutcome : Nat → Nat → Except Unit (List VecHit)

/- ### Character and string helpers -/

/-- JavaScript word character (`\w`): letters, digits, underscore. -/
def isWordChar (c : Char) : Bool :=
  c.isAlpha || c.isDigit || c = '_'

/-- Is `c` one of the identifier letters of the pattern `[PR]` with the `i`
flag, i.e. `P`, `p`, `R` or `r`? -/
def isPRChar (c : Char) : Bool :=
  c = 'P' || c = 'p' || c = 'R' || c = 'r'

/-- Case-insensitive character comparison (for `i`-flagged regexes). -/
def eqCI (a b : Char) : Bool :=
  a.toLower = b.toLower

/-- Is `needle` a contiguous sublist of `hay`? -/
def infixOf (needle : List Char) : List Char → Bool
  | [] => needle.isEmpty
  | c :: cs => needle.isPrefixOf (c :: cs) || infixOf needle cs

/-- `String.prototype.includes`: substring containment (case-sensitive). -/
def strContains (hay sub : String) : Bool :=
  infixOf sub.toList hay.toList

/-- Split a character list at every character satisfying `p`
(JavaScript `split` keeps empty segments). -/
def splitOnPred (p : Char → Bool) : List Char → List (List Char)
  | [] => [[]]
  | c :: cs =>
    match splitOnPred p cs with
    | [] => [[]]
    | w :: ws => if p c then [] :: w :: ws else (c :: w) :: ws

/-- `userQuery.toLowerCase().split(/\s+/).filter(term => term.length > 2)` —
the lexical query terms of the hybrid path. -/
def wsTokens (q : String) : List String :=
  ((splitOnPred Char.isWhitespace (q.toList.map Char.toLower)).map
      (fun w => String.mk w)).filter (fun t => 2 < t.length)

/-- `userQuery.toLowerCase().split(' ').filter(term => term.length > 2)` —
the lexical query terms of the no-embeddings fallback path. -/
def fbTokens (q : String) : List String :=
  ((splitOnPred (fun c => c = ' ') (q.toList.map Char.toLower)).map
      (fun w => String.mk w)).filter (fun t => 2 < t.length)

/- ### Identifier detection: `userQuery.match(/\b[PR]\d+\b/gi)` -/

/-- Scan for matches of `/\b[PR]\d+\b/gi`, uppercasing the letter as the
source does with `.toUpperCase()`.  `prev` is the character before the
current position (for the `\b` test).  A global regex scan never restarts
inside a match; since a match can only start at a `P`/`R` character and the
rest of a match is digits, scanning character by character is equivalent. -/
def scanIds : Option Char → List Char → List String
  | _, [] => []
  | prev, c :: cs =>
    let boundaryBefore : Bool :=
      match prev with
      | none => true
      | some p => !(isWordChar p)
    let ds := cs.takeWhile Char.isDigit
    let boundaryAfter : Bool :=
      match (cs.dropWhile Char.isDigit).head? with
      | none => true
      | some a => !(isWordChar a)
    if isPRChar c && boundaryBefore && !ds.isEmpty && boundaryAfter then
      String.mk (c.toUpper :: ds) :: scanIds (some c) cs
    else
      scanIds (some c) cs

/-- Deduplication preserving first occurrences, as `Array.from(new Set(...))`. -/
def dedupKeep (seen : List String) : List String → List String
  | [] => []
  | x :: xs => if x ∈ seen then dedupKeep seen xs else x :: dedupKeep (x :: seen) xs

/-- `Array.from(new Set((userQuery.match(/\b[PR]\d+\b/gi) || []).map(s => s.toUpperCase())))`:
the detected problem identifiers, uppercased and deduplicated. -/
def detectIds (q : String) : List String :=
  dedupKeep [] (scanIds none q.toList)

/- ### The strict anchored identifier regex -/

/-- Skip `\s*`. -/
def skipWs (l : List Char) : List Char :=
  l.dropWhile Char.isWhitespace

/-- Match a literal character sequence case-insensitively, returning the rest
of the input on success. -/
def matchSeqCI : List Char → List Char → Option (List Char)
  | [], l => some l
  | _ :: _, [] => none
  | p :: ps, c :: cs => if eqCI p c then matchSeqCI ps cs else none

/-- Match the characters of an identifier with `\s*` allowed between
consecutive characters (the source builds `id.split('').join('\\s*')`),
case-insensitively. -/
def matchIdCI : List Char → List Char → Option (List Char)
  | [], l => some l
  | [p], [] => none
  | [p], c :: cs => if eqCI p c then some cs else none
  | p :: p2 :: ps, [] => none
  | p :: p2 :: ps, c :: cs =>
    if eqCI p c then matchIdCI (p2 :: ps) (skipWs cs) else none

/-- The delimiter class `[\.:\-\)]`. -/
def delimChar (c : Char) : Bool :=
  c = '.' || c = ':' || c = '-' || c = ')'

/-- After the optional `Problem` prefix: match one of the identifiers
(`\s*`-interleaved), then `\s*`, then a delimiter. -/
def matchIdsDelim (ids : List String) (l : List Char) : Bool :=
  ids.any (fun id =>
    match matchIdCI id.toList l with
    | some rest =>
      match skipWs rest with
      | [] => false
      | d :: _ => delimChar d
    | none => false)

/-- Match the body of the strong regex
`\s*(?:Problem\s*)?(?:id1|id2|...)\s*[\.:\-\)]` at a line start. -/
def strongAt (ids : List String) (l : List Char) : Bool :=
  let l1 := skipWs l
  matchIdsDelim ids l1 ||
    (match matchSeqCI "Problem".toList l1 with
     | some r => matchIdsDelim ids (skipWs r)
     | none => false)

/-- Try the strong match just after every line terminator (the `\n|\r`
alternatives of the `(^|\n|\r)` anchor). -/
def strongScan (ids : List String) : List Char → Bool
  | [] => false
  | c :: cs => ((c = '\n' || c = '\r') && strongAt ids cs) || strongScan ids cs

/-- Does `content` match the strict anchored regex
`(^|\n|\r)\s*(?:Problem\s*)?(?:id1|id2|...)\s*[\.:\-\)]` (flags `im`)
built from the detected identifiers? -/
def strongMatch (ids : List String) (content : String) : Bool :=
  strongAt ids content.toList || strongScan ids content.toList

/- ### MongoDB regex find over the lexical store -/

/-- Does `content` match the alternation regex built from the literal
`branches`, case-insensitively and unanchored (MongoDB `$regex` with
`$options: 'i'`)?  An empty pattern (no branches) matches everything. -/
def mongoMatch (branches : List String) (content : String) : Bool :=
  branches.isEmpty ||
    branches.any (fun b => strContains content.toLower b.toLower)

/-- `resources.find({ content: { $regex: pattern, $options: 'i' } }).limit(lim)`,
in natural (corpus) order. -/
def mongoRegexFind (rs : List Passage) (branches : List String) (lim : Nat) :
    List Passage :=
  (rs.filter (fun p => mongoMatch branches p.content)).take lim

/- ### Insertion-ordered maps (JavaScript `Map`) -/

/-- Lookup in an insertion-ordered association list. -/
def mapGet {α : Type} : List (String × α) → String → Option α
  | [], _ => none
  | e :: m, k => if e.1 = k then some e.2 else mapGet m k

/-- `Map.prototype.set`: replace the value at an existing key in place,
else append the new entry at the end. -/
def mapSet {α : Type} : List (String × α) → String → α → List (String × α)
  | [], k, v => [(k, v)]
  | e :: m, k, v => if e.1 = k then (k, v) :: m else e :: mapSet m k v

/- ### Reciprocal rank fusion -/

/-- The fusion key of a vector hit:
`r.resourceId || r.content.slice(0, 50) + '_' + idx`. -/
def vKey (r : VecHit) (idx : Nat) : String :=
  match r.resourceId with
  | some id => id
  | none => r.content.take 50 ++ "_" ++ toString idx

/-- The fusion key of a lexical hit: `r.id || ...` with the same fallback. -/
def tKey (p : Passage) (idx : Nat) : String :=
  match p.id with
  | some id => id
  | none => p.content.take 50 ++ "_" ++ toString idx

/-- `vectorResults.forEach(...)`: accumulate `0.6 * (1 / (idx + 1 + 60))`
per key into the `vectorScores` map. -/
def buildVectorScoresAux (m : List (String × ℚ)) (idx : Nat) :
    List VecHit → List (String × ℚ)
  | [] => m
  | r :: rs =>
    let k := vKey r idx
    let prior := (mapGet m k).getD 0
    buildVectorScoresAux
      (mapSet m k (prior + (3 / 5 : ℚ) * (1 / ((idx : ℚ) + 1 + 60)))) (idx + 1) rs

/-- `textResults.forEach(...)`: accumulate `weight * (1 / (idx + 1 + 60))`
per key into the `textScores` map, with weight `0.8` when the content
contains a detected identifier (`r.content.toUpperCase().includes(id)`) and
`0.4` otherwise; the content is stored alongside. -/
def buildTextScoresAux (ids : List String) (m : List (String × (ℚ × String)))
    (idx : Nat) : List Passage → List (String × (ℚ × String))
  | [] => m
  | r :: rs =>
    let k := tKey r idx
    let containsId := ids.any (fun id => strContains r.content.toUpper id)
    let w : ℚ := if containsId then 4 / 5 else 2 / 5
    let prior := ((mapGet m k).map Prod.fst).getD 0
    buildTextScoresAux ids
      (mapSet m k (prior + w * (1 / ((idx : ℚ) + 1 + 60)), r.content)) (idx + 1) rs

/-- First pass filling `fusedMap`: for each vector hit, add the (already
fully accumulated) `vectorScores` value of its key to the fused score. -/
def fuseVecAux (vScores : List (String × ℚ)) (m : List (String × (ℚ × String)))
    (idx : Nat) : List VecHit → List (String × (ℚ × String))
  | [] => m
  | r :: rs =>
    let k := vKey r idx
    let prior := ((mapGet m k).map Prod.fst).getD 0
    let vsc := (mapGet vScores k).getD 0
    fuseVecAux vScores (mapSet m k (prior + vsc, r.content)) (idx + 1) rs

/-- Second pass: merge the `textScores` entries (in insertion order) into
`fusedMap`, adding scores and keeping the existing content when it is a
non-empty string (`existing?.content || val.content`). -/
def mergeTextAux : List (String × (ℚ × String)) → List (String × (ℚ × String)) →
    List (String × (ℚ × String))
  | m, [] => m
  | m, (k, val) :: rest =>
    let exScore := ((mapGet m k).map Prod.fst).getD 0
    let exContent : String :=
      match mapGet m k with
      | some e => if e.2 = "" then val.2 else e.2
      | none => val.2
    mergeTextAux (mapSet m k (exScore + val.1, exContent)) rest

/-- Stable descending insertion: place `x` before the first entry whose score
is not greater than `x`'s (elements inserted earlier keep priority on ties,
matching the stable JavaScript sort with comparator `b.score - a.score`). -/
def insertDesc (x : String × ℚ × String) :
    List (String × ℚ × String) → List (String × ℚ × String)
  | [] => [x]
  | y :: ys => if x.2.1 < y.2.1 then y :: insertDesc x ys else x :: y :: ys

/-- Stable sort of the fused map entries by score, descending. -/
def sortDesc (l : List (String × ℚ × String)) : List (String × ℚ × String) :=
  l.foldr insertDesc []

/-- The whole fusion step of `findRelevantContent`: reciprocal-rank scores for
both lists, the two-pass fused map, stable descending sort, truncation to
`limit`, and projection to `RankedResult` (`name`, `similarity := score`,
`resourceId := key`). -/
def fuseLists (ids : List String) (vs : List VecHit) (ts : List Passage)
    (limit : Nat) : List RankedResult :=
  let vScores := buildVectorScoresAux [] 0 vs
  let tScores := buildTextScoresAux ids [] 0 ts
  let fm := mergeTextAux (fuseVecAux vScores [] 0 vs) tScores
  ((sortDesc fm).take limit).map (fun e => ⟨e.2.2, e.2.1, some e.1⟩)

/- ### The retrieval pipeline -/

/-- The `numCandidates` parameter of the `$vectorSearch` stage. -/
def vectorNumCandidates : Nat := 200

/-- The `limit` parameter of the `$vectorSearch` stage: `Math.max(limit, 8)`. -/
def vectorFetchLimit (limit : Nat) : Nat := max limit 8

/-- The `.limit(...)` of the lexical find of the hybrid path:
`Math.max(limit, 12)`. -/
def lexicalFetchLimit (limit : Nat) : Nat := max limit 12

/-- The vector candidate list: the `$vectorSearch` outcome, with a failure
caught locally and treated as an empty list. -/
def vectorResultsOf (vec : Nat → Nat → Except Unit (List VecHit)) (limit : Nat) :
    List VecHit :=
  match vec vectorNumCandidates (vectorFetchLimit limit) with
  | Except.ok vs => vs
  | Except.error _ => []

/-- The lexical candidate list: the regex find over
`explicitIds ++ regexTerms`, run only when the combined pattern is non-empty
(`if (combined)`). -/
def textResultsOf (rs : List Passage) (q : String) (limit : Nat) : List Passage :=
  let combined := detectIds q ++ wsTokens q
  if combined.isEmpty then [] else mongoRegexFind rs combined (lexicalFetchLimit limit)

/-- The strong anchored find, run only when identifiers were detected,
limited to `limit`. -/
def strongResultsOf (rs : List Passage) (q : String) (limit : Nat) : List Passage :=
  if (detectIds q).isEmpty then []
  else (rs.filter (fun p => strongMatch (detectIds q) p.content)).take limit

/-- The no-embeddings fallback: tokenize with `split(' ')`, find by the
disjunctive regex (an empty pattern matches every document), take `limit`,
and score every match with the fixed fallback similarity `0.7`. -/
def fallbackPath (rs : List Passage) (q : String) (limit : Nat) : List RankedResult :=
  (mongoRegexFind rs (fbTokens q) limit).map
    (fun p => ⟨p.content, 7 / 10, p.id⟩)

/-- `findRelevantContent(userQuery, limit)` — the spec's
`retrieveCorpus`.  Mirrors the TypeScript control flow: when embeddings
exist, embed the query (an embedding failure reaches the outermost catch,
which returns `[]`), gather vector and lexical candidates, short-circuit on a
strong anchored identifier match (similarity `1.0`), otherwise fuse; when the
fused list is empty, or when there are no embeddings at all, fall through to
the lexical fallback. -/
def findRelevantContent (env : Env) (userQuery : String) (limit : Nat := 4) :
    List RankedResult :=
  if 0 < env.embeddingCount then
    match env.embedOutcome with
    | Except.error _ => []
    | Except.ok _ =>
      let strong := strongResultsOf env.resources userQuery limit
      if !strong.isEmpty then
        strong.map (fun p => ⟨p.content, 1, p.id⟩)
      else
        let fused := fuseLists (detectIds userQuery)
          (vectorResultsOf env.vectorOutcome limit)
          (textResultsOf env.resources userQuery limit) limit
        if !fused.isEmpty then fused
        else fallbackPath env.resources userQuery limit
  else fallbackPath env.resources userQuery limit

/- ### Memory retrieval (`src/app/api/rag-chapter1/route.ts`) -/

/-- The role of a stored memory item. -/
inductive Role where
  | user
  | assistant
deriving DecidableEq, Repr

/-- A hit of the `chat_memory` vector search. -/
structure MemoryHit where
  content : String
  role : Role
  score : ℚ
deriving DecidableEq, Repr

/-- The external world of the memory retrieval block: the
`chatMemory.countDocuments({ threadId })` result, the outcome of the
embedding call, and the outcome of the thread-filtered vector search as a
function of its `numCandidates` and `limit` parameters. -/
structure MemEnv where
  priorCount : Nat
  embedOutcome : Except Unit Unit
  memorySearch : Nat → Nat → Except Unit (List MemoryHit)

/-- The memory retrieval block of the chapter-1 route — the spec's
`retrieveMemory`.  Returns the retrieved hits together with a flag recording
whether `generateEmbedding` was invoked.  The whole block sits in a
`try`/`catch` whose handler just logs, so every failure yields the empty
list. -/
def retrieveMemory (env : MemEnv) : List MemoryHit × Bool :=
  if 0 < env.priorCount then
    match env.embedOutcome with
    | Except.error _ => ([], true)
    | Except.ok _ =>
      match env.memorySearch 100 6 with
      | Except.error _ => ([], true)
      | Except.ok hits => (hits, true)
  else ([], false)

/- ### Spec-side closed forms for the reciprocal-rank tables -/

/-- The keys of the vector hits starting at offset `idx`. -/
def vKeysFrom (idx : Nat) : List VecHit → List String
  | [] => []
  | r :: rs => vKey r idx :: vKeysFrom (idx + 1) rs

/-- The keys of the lexical hits starting at offset `idx`. -/
def tKeysFrom (idx : Nat) : List Passage → List String
  | [] => []
  | p :: ps => tKey p idx :: tKeysFrom (idx + 1) ps

/-- The spec's closed form of the vector score map: the candidate at 0-based
rank `idx` contributes exactly `0.6 / (idx + 1 + 60)`. -/
def vTableFrom (idx : Nat) : List VecHit → List (String × ℚ)
  | [] => []
  | r :: rs =>
    (vKey r idx, (3 / 5 : ℚ) * (1 / ((idx : ℚ) + 1 + 60))) :: vTableFrom (idx + 1) rs

/-- The spec's closed form of the lexical score map: the candidate at 0-based
rank `idx` contributes exactly `weight / (idx + 1 + 60)` with weight `0.8`
when its content contains a detected identifier and `0.4` otherwise. -/
def tTableFrom (ids : List String) (idx : Nat) : List Passage → List (String × (ℚ × String))
  | [] => []
  | p :: ps =>
    (tKey p idx,
      ((if ids.any (fun id => strContains p.content.toUpper id) then (4 / 5 : ℚ) else 2 / 5) *
        (1 / ((idx : ℚ) + 1 + 60)), p.content)) :: tTableFrom ids (idx + 1) ps

/- ### Association-map lemmas -/

theorem mapGet_mapSet_self {α : Type} (m : List (String × α)) (k : String) (v : α) :
    mapGet (mapSet m k v) k = some v := by
  induction m with
  | nil => simp [mapGet, mapSet]
  | cons e m ih =>
    by_cases h : e.1 = k
    · simp [mapGet, mapSet, h]
    · simp [mapGet, mapSet, h, ih]

theorem mapGet_mapSet_ne {α : Type} (m : List (String × α)) (k k' : String) (v : α)
    (h : k' ≠ k) : mapGet (mapSet m k v) k' = mapGet m k' := by
  induction m with
  | nil => simp only [mapSet, mapGet, if_neg (Ne.symm h)]
  | cons e m ih =>
    by_cases he : e.1 = k
    · have he2 : ¬ e.1 = k' := by rw [he]; exact Ne.symm h
      simp only [mapSet, if_pos he, mapGet, if_neg (Ne.symm h), if_neg he2]
    · by_cases he' : e.1 = k'
      · simp only [mapSet, if_neg he, mapGet, if_pos he']
      · simp only [mapSet, if_neg he, mapGet, if_neg he', ih]

theorem mem_mapSet {α : Type} (m : List (String × α)) (k : String) (v : α)
    (e : String × α) (he : e ∈ mapSet m k v) : e = (k, v) ∨ e ∈ m := by
  induction m with
  | nil => simpa [mapSet] using he
  | cons e0 m ih =>
    by_cases h : e0.1 = k
    · rw [mapSet, if_pos h] at he
      rcases List.mem_cons.mp he with h1 | h1
      · exact Or.inl h1
      · exact Or.inr (List.mem_cons_of_mem _ h1)
    · rw [mapSet, if_neg h] at he
      rcases List.mem_cons.mp he with h1 | h1
      · exact Or.inr (h1 ▸ List.mem_cons_self _ _)
      · rcases ih h1 with h2 | h2
        · exact Or.inl h2
        · exact Or.inr (List.mem_cons_of_mem _ h2)

theorem mapGet_some_mem {α : Type} (m : List (String × α)) (k : String) (v : α)
    (h : mapGet m k = some v) : (k, v) ∈ m := by
  induction m with
  | nil => simp [mapGet] at h
  | cons e m ih =>
    by_cases he : e.1 = k
    · rw [mapGet, if_pos he] at h
      have : e = (k, v) := by
        cases e
        simp only [Option.some.injEq] at h
        simp_all
      exact this ▸ List.mem_cons_self _ _
    · rw [mapGet, if_neg he] at h
      exact List.mem_cons_of_mem _ (ih h)

theorem mapSet_of_get_none {α : Type} (m : List (String × α)) (k : String) (v : α)
    (h : mapGet m k = none) : mapSet m k v = m ++ [(k, v)] := by
  induction m with
  | nil => simp [mapSet]
  | cons e m ih =>
    by_cases he : e.1 = k
    · rw [mapGet, if_pos he] at h
      exact absurd h (by simp)
    · rw [mapGet, if_neg he] at h
      simp [mapSet, he, ih h]

theorem mapGet_append_of_none {α : Type} (m m' : List (String × α)) (k : String)
    (h : mapGet m k = none) : mapGet (m ++ m') k = mapGet m' k := by
  induction m with
  | nil => simp
  | cons e m ih =>
    by_cases he : e.1 = k
    · rw [mapGet, if_pos he] at h
      exact absurd h (by simp)
    · rw [mapGet, if_neg he] at h
      simpa [mapGet, he] using ih h

theorem mapGet_single_ne {α : Type} (k k' : String) (v : α) (h : k' ≠ k) :
    mapGet [(k, v)] k' = none := by
  simp only [mapGet, if_neg (Ne.symm h)]

/- ### Stable sort lemmas -/

theorem insertDesc_perm (x : String × ℚ × String) (l : List (String × ℚ × String)) :
    (insertDesc x l).Perm (x :: l) := by
  induction l with
  | nil => simp [insertDesc]
  | cons y ys ih =>
    rw [insertDesc]
    by_cases h : x.2.1 < y.2.1
    · rw [if_pos h]
      exact (ih.cons y).trans (List.Perm.swap x y ys)
    · rw [if_neg h]

theorem sortDesc_perm (l : List (String × ℚ × String)) : (sortDesc l).Perm l := by
  induction l with
  | nil => simp [sortDesc]
  | cons x xs ih =>
    have : sortDesc (x :: xs) = insertDesc x (sortDesc xs) := rfl
    rw [this]
    exact (insertDesc_perm x (sortDesc xs)).trans (ih.cons x)

theorem insertDesc_sorted (x : String × ℚ × String) (l : List (String × ℚ × String))
    (hl : List.Pairwise (fun a b => b.2.1 ≤ a.2.1) l) :
    List.Pairwise (fun a b => b.2.1 ≤ a.2.1) (insertDesc x l) := by
  induction l with
  | nil => simp [insertDesc]
  | cons y ys ih =>
    rw [insertDesc]
    rcases List.pairwise_cons.mp hl with ⟨hy, hys⟩
    by_cases h : x.2.1 < y.2.1
    · rw [if_pos h]
      refine List.pairwise_cons.mpr ⟨?_, ih hys⟩
      intro z hz
      have hz1 := (insertDesc_perm x ys).mem_iff.mp hz
      rcases List.mem_cons.mp hz1 with rfl | hz2
      · exact le_of_lt h
      · exact hy z hz2
    · rw [if_neg h]
      refine List.pairwise_cons.mpr ⟨?_, hl⟩
      intro z hz
      rcases List.mem_cons.mp hz with rfl | hz'
      · exact not_lt.mp h
      · exact le_trans (hy z hz') (not_lt.mp h)

theorem sortDesc_sorted (l : List (String × ℚ × String)) :
    List.Pairwise (fun a b => b.2.1 ≤ a.2.1) (sortDesc l) := by
  induction l with
  | nil => simp [sortDesc]
  | cons x xs ih => exact insertDesc_sorted x (sortDesc xs) ih

theorem insertDesc_filter_score (x : String × ℚ × String)
    (l : List (String × ℚ × String)) (s : ℚ) :
    (insertDesc x l).filter (fun e => decide (e.2.1 = s))
      = if x.2.1 = s then x :: l.filter (fun e => decide (e.2.1 = s))
        else l.filter (fun e => decide (e.2.1 = s)) := by
  induction l with
  | nil =>
    by_cases hx : x.2.1 = s <;> simp [insertDesc, List.filter, hx]
  | cons y ys ih =>
    rw [insertDesc]
    by_cases h : x.2.1 < y.2.1
    · rw [if_pos h]
      by_cases hx : x.2.1 = s
      · have hy : ¬ (y.2.1 = s) := by
          intro hy
          rw [hx, hy] at h
          exact lt_irrefl s h
        simp [List.filter_cons, hx, hy, ih]
      · by_cases hy : y.2.1 = s <;> simp [List.filter_cons, hx, hy, ih]
    · rw [if_neg h]
      by_cases hx : x.2.1 = s <;> simp [List.filter_cons, hx]

theorem sortDesc_filter_score (l : List (String × ℚ × String)) (s : ℚ) :
    (sortDesc l).filter (fun e => decide (e.2.1 = s))
      = l.filter (fun e => decide (e.2.1 = s)) := by
  induction l with
  | nil => rfl
  | cons x xs ih =>
    have h1 : sortDesc (x :: xs) = insertDesc x (sortDesc xs) := rfl
    rw [h1, insertDesc_filter_score]
    by_cases hx : x.2.1 = s <;> simp [List.filter_cons, hx, ih]

/- ### Closed forms of the score maps under distinct keys -/

theorem buildVectorScores_eq_table (rs : List VecHit) :
    ∀ (idx : Nat) (m : List (String × ℚ)),
    (vKeysFrom idx rs).Nodup →
    (∀ k ∈ vKeysFrom idx rs, mapGet m k = none) →
    buildVectorScoresAux m idx rs = m ++ vTableFrom idx rs := by
  induction rs with
  | nil =>
    intro idx m _ _
    simp [buildVectorScoresAux, vTableFrom]
  | cons r rs ih =>
    intro idx m hnd hnone
    have hk : mapGet m (vKey r idx) = none := hnone _ (by simp [vKeysFrom])
    have hcons : (vKeysFrom idx (r :: rs)) = vKey r idx :: vKeysFrom (idx + 1) rs := rfl
    have hnd2 := List.nodup_cons.mp (hcons ▸ hnd)
    have hnone2 : ∀ k ∈ vKeysFrom (idx + 1) rs,
        mapGet (m ++ [(vKey r idx, (3 / 5 : ℚ) * (1 / ((idx : ℚ) + 1 + 60)))]) k = none := by
      intro k hkmem
      rw [mapGet_append_of_none _ _ _ (hnone k (by rw [hcons]; exact List.mem_cons_of_mem _ hkmem))]
      exact mapGet_single_ne _ _ _ (fun h => hnd2.1 (h ▸ hkmem))
    rw [buildVectorScoresAux, hk]
    simp only [Option.getD_none, zero_add]
    rw [mapSet_of_get_none _ _ _ hk]
    rw [ih (idx + 1) _ hnd2.2 hnone2]
    simp [vTableFrom, List.append_assoc]

theorem buildTextScores_eq_table (ids : List String) (ts : List Passage) :
    ∀ (idx : Nat) (m : List (String × (ℚ × String))),
    (tKeysFrom idx ts).Nodup →
    (∀ k ∈ tKeysFrom idx ts, mapGet m k = none) →
    buildTextScoresAux ids m idx ts = m ++ tTableFrom ids idx ts := by
  induction ts with
  | nil =>
    intro idx m _ _
    simp [buildTextScoresAux, tTableFrom]
  | cons p ps ih =>
    intro idx m hnd hnone
    have hk : mapGet m (tKey p idx) = none := hnone _ (by simp [tKeysFrom])
    have hcons : (tKeysFrom idx (p :: ps)) = tKey p idx :: tKeysFrom (idx + 1) ps := rfl
    have hnd2 := List.nodup_cons.mp (hcons ▸ hnd)
    have hnone2 : ∀ k ∈ tKeysFrom (idx + 1) ps,
        mapGet (m ++ [(tKey p idx,
          ((if ids.any (fun id => strContains p.content.toUpper id) then (4 / 5 : ℚ) else 2 / 5) *
            (1 / ((idx : ℚ) + 1 + 60)), p.content))]) k = none := by
      intro k hkmem
      rw [mapGet_append_of_none _ _ _ (hnone k (by rw [hcons]; exact List.mem_cons_of_mem _ hkmem))]
      exact mapGet_single_ne _ _ _ (fun h => hnd2.1 (h ▸ hkmem))
    rw [buildTextScoresAux, hk]
    simp only [Option.map_none', Option.getD_none, zero_add]
    rw [mapSet_of_get_none _ _ _ hk]
    rw [ih (idx + 1) _ hnd2.2 hnone2]
    simp [tTableFrom, List.append_assoc]

/- ### Score bounds -/

theorem reciprocal_le (idx : Nat) : (1 : ℚ) / ((idx : ℚ) + 1 + 60) ≤ 1 / 61 := by
  have h0 : (0 : ℚ) < 61 := by norm_num
  have h1 : (61 : ℚ) ≤ (idx : ℚ) + 1 + 60 := by
    have := Nat.cast_nonneg (α := ℚ) idx
    linarith
  exact one_div_le_one_div_of_le h0 h1

theorem vTable_value_le (rs : List VecHit) :
    ∀ (idx : Nat), ∀ e ∈ vTableFrom idx rs, e.2 ≤ 3 / 305 := by
  induction rs with
  | nil => intro idx e he; simp [vTableFrom] at he
  | cons r rs ih =>
    intro idx e he
    rw [vTableFrom] at he
    rcases List.mem_cons.mp he with rfl | he2
    · have h2 := reciprocal_le idx
      calc (3 / 5 : ℚ) * (1 / ((idx : ℚ) + 1 + 60))
          ≤ 3 / 5 * (1 / 61) := by
            apply mul_le_mul_of_nonneg_left h2 (by norm_num)
        _ = 3 / 305 := by norm_num
    · exact ih (idx + 1) e he2

theorem tTable_value_le (ids : List String) (ts : List Passage) :
    ∀ (idx : Nat), ∀ e ∈ tTableFrom ids idx ts, e.2.1 ≤ 4 / 305 := by
  induction ts with
  | nil => intro idx e he; simp [tTableFrom] at he
  | cons p ps ih =>
    intro idx e he
    rw [tTableFrom] at he
    rcases List.mem_cons.mp he with rfl | he2
    · have h2 := reciprocal_le idx
      have hw : (if ids.any (fun id => strContains p.content.toUpper id) then (4 / 5 : ℚ) else 2 / 5) ≤ 4 / 5 := by
        by_cases hc : ids.any (fun id => strContains p.content.toUpper id) <;> simp [hc] <;> norm_num
      have hnn : (0 : ℚ) ≤ 1 / ((idx : ℚ) + 1 + 60) := by
        apply div_nonneg (by norm_num)
        have := Nat.cast_nonneg (α := ℚ) idx
        linarith
      calc (if ids.any (fun id => strContains p.content.toUpper id) then (4 / 5 : ℚ) else 2 / 5) *
            (1 / ((idx : ℚ) + 1 + 60))
          ≤ 4 / 5 * (1 / 61) := mul_le_mul hw h2 hnn (by norm_num)
        _ = 4 / 305 := by norm_num
    · exact ih (idx + 1) e he2

theorem fuseVecAux_value_le (vScores : List (String × ℚ)) (vs : List VecHit)
    (hvsc : ∀ k : String, ((mapGet vScores k).getD 0 : ℚ) ≤ 3 / 305) :
    ∀ (idx : Nat) (m : List (String × (ℚ × String))),
    (vKeysFrom idx vs).Nodup →
    (∀ e ∈ m, e.2.1 ≤ 3 / 305) →
    (∀ e ∈ m, e.1 ∈ vKeysFrom idx vs → e.2.1 = 0) →
    ∀ e ∈ fuseVecAux vScores m idx vs, e.2.1 ≤ 3 / 305 := by
  induction vs with
  | nil =>
    intro idx m _ h1 _ e he
    exact h1 e he
  | cons r rs ih =>
    intro idx m hnd h1 h2 e he
    have hcons : (vKeysFrom idx (r :: rs)) = vKey r idx :: vKeysFrom (idx + 1) rs := rfl
    have hnd2 := List.nodup_cons.mp (hcons ▸ hnd)
    rw [fuseVecAux] at he
    have hprior : ((mapGet m (vKey r idx)).map Prod.fst).getD 0 = 0 := by
      cases hg : mapGet m (vKey r idx) with
      | none => simp
      | some v =>
        have hv := h2 _ (mapGet_some_mem _ _ _ hg) (by rw [hcons]; exact List.mem_cons_self _ _)
        simpa using hv
    refine ih (idx + 1) _ hnd2.2 ?_ ?_ e he
    · intro e2 he2
      rcases mem_mapSet _ _ _ _ he2 with rfl | he3
      · rw [hprior]
        simpa using hvsc (vKey r idx)
      · exact h1 e2 he3
    · intro e2 he2 hk2
      rcases mem_mapSet _ _ _ _ he2 with rfl | he3
      · exact absurd hk2 (by simpa using hnd2.1)
      · exact h2 e2 he3 (by rw [hcons]; exact List.mem_cons_of_mem _ hk2)

theorem mergeTextAux_value_le (ts : List (String × (ℚ × String))) :
    ∀ (m : List (String × (ℚ × String))),
    (ts.map Prod.fst).Nodup →
    (∀ e ∈ ts, e.2.1 ≤ 4 / 305) →
    (∀ e ∈ m, e.2.1 ≤ 7 / 305) →
    (∀ e ∈ m, e.1 ∈ ts.map Prod.fst → e.2.1 ≤ 3 / 305) →
    ∀ e ∈ mergeTextAux m ts, e.2.1 ≤ 7 / 305 := by
  induction ts with
  | nil =>
    intro m _ _ h1 _ e he
    exact h1 e he
  | cons kv rest ih =>
    intro m hnd hts h1 h2 e he
    obtain ⟨k, val⟩ := kv
    have hnd1 : (k :: rest.map Prod.fst).Nodup := hnd
    have hnd2 := List.nodup_cons.mp hnd1
    rw [mergeTextAux] at he
    have hex : ((mapGet m k).map Prod.fst).getD 0 ≤ 3 / 305 := by
      cases hg : mapGet m k with
      | none => norm_num
      | some v =>
        have hv := h2 _ (mapGet_some_mem _ _ _ hg) (List.mem_cons_self _ _)
        simpa using hv
    refine ih _ hnd2.2 (fun e2 he2 => hts e2 (List.mem_cons_of_mem _ he2)) ?_ ?_ e he
    · intro e2 he2
      rcases mem_mapSet _ _ _ _ he2 with rfl | he3
      · have hval : val.1 ≤ 4 / 305 := hts (k, val) (List.mem_cons_self _ _)
        have : ((mapGet m k).map Prod.fst).getD 0 + val.1 ≤ 7 / 305 := by linarith
        simpa using this
      · exact h1 e2 he3
    · intro e2 he2 hk2
      rcases mem_mapSet _ _ _ _ he2 with rfl | he3
      · exact absurd hk2 hnd2.1
      · exact h2 e2 he3 (List.mem_cons_of_mem _ hk2)

/- ### Whitespace query lemmas -/

theorem ws_not_PR (c : Char) (h : c.isWhitespace = true) : isPRChar c = false := by
  simp only [Char.isWhitespace, Bool.or_eq_true, decide_eq_true_eq] at h
  rcases h with ((h | h) | h) | h <;> subst h <;> decide

theorem toLower_ws (c : Char) (h : c.isWhitespace = true) :
    (Char.toLower c).isWhitespace = true := by
  simp only [Char.isWhitespace, Bool.or_eq_true, decide_eq_true_eq] at h
  rcases h with ((h | h) | h) | h <;> subst h <;> decide

theorem scanIds_all_ws (l : List Char) (hl : ∀ c ∈ l, c.isWhitespace = true) :
    ∀ prev, scanIds prev l = [] := by
  induction l with
  | nil => intro prev; rfl
  | cons c cs ih =>
    intro prev
    have hc := ws_not_PR c (hl c (List.mem_cons_self _ _))
    have h2 : scanIds prev (c :: cs) = scanIds (some c) cs := by
      rw [scanIds.eq_def]
      simp [hc]
    rw [h2]
    exact ih (fun d hd => hl d (List.mem_cons_of_mem _ hd)) (some c)

theorem splitOnPred_all_nil (p : Char → Bool) (l : List Char)
    (hl : ∀ c ∈ l, p c = true) : ∀ w ∈ splitOnPred p l, w = [] := by
  induction l with
  | nil =>
    intro w hw
    simpa [splitOnPred] using hw
  | cons c cs ih =>
    intro w hw
    have hc := hl c (List.mem_cons_self _ _)
    have ih2 := ih (fun d hd => hl d (List.mem_cons_of_mem _ hd))
    cases hsp : splitOnPred p cs with
    | nil =>
      have heq : splitOnPred p (c :: cs) = [[]] := by
        rw [splitOnPred, hsp]
      rw [heq] at hw
      simpa using hw
    | cons w0 ws =>
      have heq : splitOnPred p (c :: cs) = [] :: w0 :: ws := by
        rw [splitOnPred, hsp]
        exact if_pos hc
      rw [heq] at hw
      rcases List.mem_cons.mp hw with rfl | hw2
      · rfl
      · exact ih2 w (hsp ▸ hw2)

theorem wsTokens_all_ws (q : String) (hq : ∀ c ∈ q.toList, c.isWhitespace = true) :
    wsTokens q = [] := by
  rw [wsTokens]
  rw [List.filter_eq_nil_iff]
  intro t ht
  rcases List.mem_map.mp ht with ⟨w, hw, rfl⟩
  have hw2 : w = [] := splitOnPred_all_nil _ _
    (fun c hc => by
      rcases List.mem_map.mp hc with ⟨d, hd, rfl⟩
      exact toLower_ws d (hq d hd)) w hw
  subst hw2
  decide

theorem detectIds_all_ws (q : String) (hq : ∀ c ∈ q.toList, c.isWhitespace = true) :
    detectIds q = [] := by
  rw [detectIds, scanIds_all_ws q.toList hq none]
  rfl

/- ### Small list lemmas -/

theorem take_ne_nil_of_pos {α : Type} (l : List α) (n : Nat) (hl : l ≠ []) (hn : 0 < n) :
    l.take n ≠ [] := by
  cases l with
  | nil => exact absurd rfl hl
  | cons a l =>
    obtain ⟨m, rfl⟩ : ∃ m, n = m + 1 := ⟨n - 1, (Nat.succ_pred_eq_of_pos hn).symm⟩
    simp [List.take]

theorem fuseLists_length_le (ids : List String) (vs : List VecHit) (ts : List Passage)
    (lim : Nat) : (fuseLists ids vs ts lim).length ≤ lim := by
  rw [fuseLists]
  simp only [List.length_map, List.length_take]
  exact min_le_left _ _

theorem fallbackPath_length_le (rs : List Passage) (q : String) (lim : Nat) :
    (fallbackPath rs q lim).length ≤ lim := by
  rw [fallbackPath, mongoRegexFind]
  simp only [List.length_map, List.length_take]
  exact min_le_left _ _

/- ### Claim theorems -/

/-- Claim C3: if the vector-search dependency throws, `findRelevantContent`
does not propagate the exception: the run is identical to a run in which the
vector search returns the empty candidate list, so the call still returns
the lexical-only fused result. -/
theorem degrade_not_fail (n : Nat) (rs : List Passage) (emb : Except Unit Unit)
    (e : Unit) (q : String) (lim : Nat) :
    findRelevantContent ⟨n, rs, emb, fun _ _ => Except.error e⟩ q lim
      = findRelevantContent ⟨n, rs, emb, fun _ _ => Except.ok []⟩ q lim := rfl

/-- Claim C7: on a thread with zero stored memory items, the memory
retrieval returns the empty result and the embedder is never invoked. -/
theorem memory_skip_on_empty (emb : Except Unit Unit)
    (srch : Nat → Nat → Except Unit (List MemoryHit)) :
    retrieveMemory ⟨0, emb, srch⟩ = ([], false) := rfl

/-- Claim C6: with zero embedded passages, `findRelevantContent` takes the
pure lexical fallback: it tokenizes the query into lowercase words of length
greater than 2, filters the corpus by the disjunctive case-insensitive
regex, returns at most `limit` matches, and scores every result with the
fixed fallback similarity `0.7`; being total, it never throws. -/
theorem empty_corpus_fallback (rs : List Passage) (emb : Except Unit Unit)
    (vec : Nat → Nat → Except Unit (List VecHit)) (q : String) (lim : Nat) :
    findRelevantContent ⟨0, rs, emb, vec⟩ q lim = fallbackPath rs q lim ∧
    fallbackPath rs q lim
      = ((rs.filter (fun p => mongoMatch (fbTokens q) p.content)).take lim).map
          (fun p => ⟨p.content, 7 / 10, p.id⟩) ∧
    (findRelevantContent ⟨0, rs, emb, vec⟩ q lim).length ≤ lim ∧
    ∀ r ∈ findRelevantContent ⟨0, rs, emb, vec⟩ q lim, r.similarity = 7 / 10 := by
  have h1 : findRelevantContent ⟨0, rs, emb, vec⟩ q lim = fallbackPath rs q lim := rfl
  refine ⟨h1, rfl, ?_, ?_⟩
  · rw [h1]
    exact fallbackPath_length_le rs q lim
  · intro r hr
    rw [h1, fallbackPath] at hr
    rcases List.mem_map.mp hr with ⟨p, _, rfl⟩
    rfl

/-- Claim C4 counterexample: the hybrid path does not over-fetch at least
`2 × limit` vector candidates nor up to `3 × limit` lexical candidates — at
`limit = 9` the vector fetch cap is `max 9 8 = 9 < 18` and the lexical fetch
cap is `max 9 12 = 12 < 27`. -/
theorem overfetch_params_cex :
    vectorFetchLimit 9 < 2 * 9 ∧ lexicalFetchLimit 9 < 3 * 9 := by decide

/-- Claim C4 as amended: on the hybrid path `findRelevantContent` queries the
vector search with candidate pool `numCandidates = 200` and top-K
`max(limit, 8)` (its result only depends on the vector dependency through
that call), and caps the lexical fetch at `max(limit, 12)`; these floors
equal `2 × limit` and `3 × limit` at the default `limit = 4` and never fall
below `limit`. -/
theorem overfetch_params (n : Nat) (rs : List Passage) (emb : Except Unit Unit)
    (v1 v2 : Nat → Nat → Except Unit (List VecHit)) (q : String) (lim : Nat)
    (h : v1 vectorNumCandidates (vectorFetchLimit lim)
        = v2 vectorNumCandidates (vectorFetchLimit lim)) :
    findRelevantContent ⟨n, rs, emb, v1⟩ q lim
      = findRelevantContent ⟨n, rs, emb, v2⟩ q lim ∧
    vectorNumCandidates = 200 ∧
    vectorFetchLimit lim = max lim 8 ∧
    lexicalFetchLimit lim = max lim 12 ∧
    vectorFetchLimit 4 = 2 * 4 ∧
    lexicalFetchLimit 4 = 3 * 4 ∧
    lim ≤ vectorFetchLimit lim ∧ 8 ≤ vectorFetchLimit lim ∧
    lim ≤ lexicalFetchLimit lim := by
  refine ⟨?_, rfl, rfl, rfl, rfl, rfl, Nat.le_max_left _ _, Nat.le_max_right _ _,
    Nat.le_max_left _ _⟩
  simp only [findRelevantContent, vectorResultsOf]
  rw [h]

/-- Concrete instance of the amended claim C4. -/
theorem overfetch_params_witness :
    findRelevantContent ⟨0, [], Except.ok (), fun _ _ => Except.ok []⟩ "" 4
      = findRelevantContent ⟨0, [], Except.ok (), fun _ _ => Except.ok []⟩ "" 4 ∧
    vectorNumCandidates = 200 ∧
    vectorFetchLimit 4 = max 4 8 ∧
    lexicalFetchLimit 4 = max 4 12 ∧
    vectorFetchLimit 4 = 2 * 4 ∧
    lexicalFetchLimit 4 = 3 * 4 ∧
    4 ≤ vectorFetchLimit 4 ∧ 8 ≤ vectorFetchLimit 4 ∧ 4 ≤ lexicalFetchLimit 4 :=
  overfetch_params 0 [] (Except.ok ()) (fun _ _ => Except.ok [])
    (fun _ _ => Except.ok []) "" 4 rfl

/- ### Hybrid-path unfolding -/

theorem isEmpty_eq_false_of_ne_nil {α : Type} (l : List α) (h : l ≠ []) :
    l.isEmpty = false := by
  cases l with
  | nil => exact absurd rfl h
  | cons a l => rfl

theorem findRelevantContent_hybrid (n : Nat) (rs : List Passage)
    (vec : Nat → Nat → Except Unit (List VecHit)) (q : String) (lim : Nat)
    (hn : 0 < n) :
    findRelevantContent ⟨n, rs, Except.ok (), vec⟩ q lim
      = if !(strongResultsOf rs q lim).isEmpty then
          (strongResultsOf rs q lim).map (fun p => ⟨p.content, 1, p.id⟩)
        else if !(fuseLists (detectIds q) (vectorResultsOf vec lim)
            (textResultsOf rs q lim) lim).isEmpty then
          fuseLists (detectIds q) (vectorResultsOf vec lim) (textResultsOf rs q lim) lim
        else fallbackPath rs q lim := by
  rw [findRelevantContent, if_pos hn]

/-- Claim C1: when the corpus has embedded passages and the embedding call
succeeds, a query with detected problem identifiers whose strict anchored
regex matches at least one passage makes `findRelevantContent` return those
strict matches directly (in corpus order, at most `limit` of them, each with
similarity exactly `1.0`), bypassing fusion — whatever the vector search
would have returned. -/
theorem identifier_short_circuit (n : Nat) (rs : List Passage)
    (vec : Nat → Nat → Except Unit (List VecHit)) (q : String) (lim : Nat)
    (hn : 0 < n) (hlim : 0 < lim) (hids : detectIds q ≠ [])
    (hstrong : rs.filter (fun p => strongMatch (detectIds q) p.content) ≠ []) :
    findRelevantContent ⟨n, rs, Except.ok (), vec⟩ q lim
      = ((rs.filter (fun p => strongMatch (detectIds q) p.content)).take lim).map
          (fun p => ⟨p.content, 1, p.id⟩) ∧
    (findRelevantContent ⟨n, rs, Except.ok (), vec⟩ q lim).length ≤ lim ∧
    ∀ r ∈ findRelevantContent ⟨n, rs, Except.ok (), vec⟩ q lim, r.similarity = 1 := by
  have hstrongr : strongResultsOf rs q lim
      = (rs.filter (fun p => strongMatch (detectIds q) p.content)).take lim := by
    rw [strongResultsOf, if_neg]
    rw [isEmpty_eq_false_of_ne_nil _ hids]
    simp
  have htake : (rs.filter (fun p => strongMatch (detectIds q) p.content)).take lim ≠ [] :=
    take_ne_nil_of_pos _ _ hstrong hlim
  have hne : (!(strongResultsOf rs q lim).isEmpty) = true := by
    rw [hstrongr, isEmpty_eq_false_of_ne_nil _ htake]
    rfl
  have hmain : findRelevantContent ⟨n, rs, Except.ok (), vec⟩ q lim
      = ((rs.filter (fun p => strongMatch (detectIds q) p.content)).take lim).map
          (fun p => ⟨p.content, 1, p.id⟩) := by
    rw [findRelevantContent_hybrid n rs vec q lim hn, if_pos hne, hstrongr]
  refine ⟨hmain, ?_, ?_⟩
  · rw [hmain]
    simp only [List.length_map, List.length_take]
    exact min_le_left _ _
  · intro r hr
    rw [hmain] at hr
    rcases List.mem_map.mp hr with ⟨p, _, rfl⟩
    rfl

/-- Concrete instance of claim C1 (the spec's P2 scenario): with a corpus in
which a distractor passage precedes the passage whose content starts the
line `Problem P3: ...`, and a vector search that would rank the distractor
first, the query `What is P3` returns the `P3` passage first with score 1. -/
theorem identifier_short_circuit_witness :
    findRelevantContent
        ⟨1, [⟨"Other stuff", some "a"⟩, ⟨"Problem P3: compute the delay", some "b"⟩],
          Except.ok (), fun _ _ => Except.ok [⟨"Other stuff", some "a"⟩]⟩
        "What is P3" 4
      = [⟨"Problem P3: compute the delay", 1, some "b"⟩] := by
  have h := identifier_short_circuit 1
    [⟨"Other stuff", some "a"⟩, ⟨"Problem P3: compute the delay", some "b"⟩]
    (fun _ _ => Except.ok [⟨"Other stuff", some "a"⟩]) "What is P3" 4
    (by decide) (by decide) (by decide) (by decide)
  rw [h.1]
  rfl

/-- Claim C9: when the corpus has embedded passages, the strong identifier
find returns nothing, and the fused list is empty, `findRelevantContent`
does not return the empty list directly: it falls through to the
no-embeddings lexical fallback over the full query terms, which scores every
match with the fixed similarity `0.7` and returns at most `limit` of them. -/
theorem fused_empty_fallthrough (n : Nat) (rs : List Passage)
    (vec : Nat → Nat → Except Unit (List VecHit)) (q : String) (lim : Nat)
    (hn : 0 < n) (hstrong : strongResultsOf rs q lim = [])
    (hfused : fuseLists (detectIds q) (vectorResultsOf vec lim)
        (textResultsOf rs q lim) lim = []) :
    findRelevantContent ⟨n, rs, Except.ok (), vec⟩ q lim = fallbackPath rs q lim ∧
    (fallbackPath rs q lim).length ≤ lim ∧
    ∀ r ∈ fallbackPath rs q lim, r.similarity = 7 / 10 := by
  refine ⟨?_, fallbackPath_length_le rs q lim, ?_⟩
  · rw [findRelevantContent_hybrid n rs vec q lim hn, hstrong, hfused]
    rfl
  · intro r hr
    rw [fallbackPath] at hr
    rcases List.mem_map.mp hr with ⟨p, _, rfl⟩
    rfl

/-- Concrete instance of claim C9: the hybrid tokenizer (split on any
whitespace, length > 2) yields no terms for `ab cd`, so both candidate lists
are empty and fusion yields nothing, yet the call falls through to the
fallback — whose empty pattern matches the whole corpus — and returns a
passage with score `0.7` instead of the empty list. -/
theorem fused_empty_fallthrough_witness :
    findRelevantContent
        ⟨1, [⟨"packet switching basics", some "a"⟩], Except.ok (),
          fun _ _ => Except.ok []⟩ "ab cd" 4
      = fallbackPath [⟨"packet switching basics", some "a"⟩] "ab cd" 4 ∧
    fallbackPath [⟨"packet switching basics", some "a"⟩] "ab cd" 4
      = [⟨"packet switching basics", 7 / 10, some "a"⟩] := by
  have h := fused_empty_fallthrough 1 [⟨"packet switching basics", some "a"⟩]
    (fun _ _ => Except.ok []) "ab cd" 4 (by decide) (by decide) (by decide)
  exact ⟨h.1, rfl⟩

/-- Claim C5: an empty or whitespace-only query is valid input: tokenization
yields no terms and no identifiers, the lexical path contributes no
candidates, the call reduces to the vector-only fusion (falling back when
that is empty), and at most `limit` results are produced; the function is
total, so no exception is possible. -/
theorem whitespace_query_valid (n : Nat) (rs : List Passage)
    (vec : Nat → Nat → Except Unit (List VecHit)) (q : String) (lim : Nat)
    (hq : ∀ c ∈ q.toList, c.isWhitespace = true) (hn : 0 < n) :
    wsTokens q = [] ∧ detectIds q = [] ∧ textResultsOf rs q lim = [] ∧
    findRelevantContent ⟨n, rs, Except.ok (), vec⟩ q lim
      = (if !(fuseLists [] (vectorResultsOf vec lim) [] lim).isEmpty then
          fuseLists [] (vectorResultsOf vec lim) [] lim
        else fallbackPath rs q lim) ∧
    (findRelevantContent ⟨n, rs, Except.ok (), vec⟩ q lim).length ≤ lim := by
  have hws := wsTokens_all_ws q hq
  have hid := detectIds_all_ws q hq
  have htext : textResultsOf rs q lim = [] := by
    rw [textResultsOf]
    simp [hid, hws]
  have hstrongR : strongResultsOf rs q lim = [] := by
    rw [strongResultsOf, hid]
    rfl
  have hmain : findRelevantContent ⟨n, rs, Except.ok (), vec⟩ q lim
      = (if !(fuseLists [] (vectorResultsOf vec lim) [] lim).isEmpty then
          fuseLists [] (vectorResultsOf vec lim) [] lim
        else fallbackPath rs q lim) := by
    rw [findRelevantContent_hybrid n rs vec q lim hn, hstrongR, hid, htext]
    rfl
  refine ⟨hws, hid, htext, hmain, ?_⟩
  rw [hmain]
  by_cases hf : (!(fuseLists [] (vectorResultsOf vec lim) [] lim).isEmpty) = true
  · rw [if_pos hf]
    exact fuseLists_length_le _ _ _ _
  · rw [if_neg hf]
    exact fallbackPath_length_le _ _ _

/-- Concrete instance of claim C5: the single-space query. -/
theorem whitespace_query_valid_witness :
    wsTokens " " = [] ∧ detectIds " " = [] ∧
    textResultsOf ([] : List Passage) " " 4 = [] ∧
    findRelevantContent ⟨1, [], Except.ok (), fun _ _ => Except.ok []⟩ " " 4
      = (if !(fuseLists [] (vectorResultsOf (fun _ _ => Except.ok []) 4) [] 4).isEmpty then
          fuseLists [] (vectorResultsOf (fun _ _ => Except.ok []) 4) [] 4
        else fallbackPath [] " " 4) ∧
    (findRelevantContent ⟨1, [], Except.ok (), fun _ _ => Except.ok []⟩ " " 4).length ≤ 4 :=
  whitespace_query_valid 1 [] (fun _ _ => Except.ok []) " " 4 (by decide) (by decide)

theorem take_all_single {α : Type} (n : Nat) (hn : 0 < n) (x : α) :
    List.take n [x] = [x] := by
  obtain ⟨m, rfl⟩ : ∃ m, n = m + 1 := ⟨n - 1, (Nat.succ_pred_eq_of_pos hn).symm⟩
  simp

theorem tTable_keys (ids : List String) (ts : List Passage) :
    ∀ idx : Nat, (tTableFrom ids idx ts).map Prod.fst = tKeysFrom idx ts := by
  induction ts with
  | nil => intro idx; rfl
  | cons p ps ih =>
    intro idx
    simp [tTableFrom, tKeysFrom, ih (idx + 1)]

/-- Claim C8: the fusion step is a pure function of its inputs, its output is
sorted by score descending, and ties are broken by first-seen order: the
stable sort is a permutation that preserves the relative order inside every
equal-score class. -/
theorem fusion_deterministic (ids : List String) (vs : List VecHit) (ts : List Passage)
    (lim : Nat) (l : List (String × ℚ × String)) (s : ℚ) :
    List.Pairwise (fun a b => b.similarity ≤ a.similarity) (fuseLists ids vs ts lim) ∧
    (sortDesc l).Perm l ∧
    (sortDesc l).filter (fun e => decide (e.2.1 = s))
      = l.filter (fun e => decide (e.2.1 = s)) := by
  refine ⟨?_, sortDesc_perm l, sortDesc_filter_score l s⟩
  rw [fuseLists]
  apply List.pairwise_map.mpr
  exact (sortDesc_sorted _).sublist (List.take_sublist _ _)

/-- Claim C2: under distinct candidate keys, the vector score map is exactly
the table assigning `0.6 / (i + 1 + 60)` to the candidate at 0-based rank
`i`, the lexical score map is exactly the table assigning
`weight / (i + 1 + 60)` with weight `0.8` on identifier containment and
`0.4` otherwise; consequently a candidate at rank 0 in both lists with no
identifier boost gets fused score exactly `0.6/61 + 0.4/61 = 1/61`. -/
theorem fusion_rank_weights :
    (∀ vs : List VecHit, (vKeysFrom 0 vs).Nodup →
      buildVectorScoresAux [] 0 vs = vTableFrom 0 vs) ∧
    (∀ (ids : List String) (ts : List Passage), (tKeysFrom 0 ts).Nodup →
      buildTextScoresAux ids [] 0 ts = tTableFrom ids 0 ts) ∧
    (∀ (c c2 k : String) (lim : Nat), 1 ≤ lim →
      (fuseLists [] [⟨c, some k⟩] [⟨c2, some k⟩] lim).map
          (fun r => (r.similarity, r.resourceId)) = [((1 : ℚ) / 61, some k)]) := by
  refine ⟨?_, ?_, ?_⟩
  · intro vs h
    simpa using buildVectorScores_eq_table vs 0 [] h (fun k _ => rfl)
  · intro ids ts h
    simpa using buildTextScores_eq_table ids ts 0 [] h (fun k _ => rfl)
  · intro c c2 k lim hlim
    have hv : buildVectorScoresAux [] 0 [⟨c, some k⟩] = [(k, (3 : ℚ) / 305)] := by
      simp [buildVectorScoresAux, vKey, mapGet, mapSet]
      norm_num
    have ht : buildTextScoresAux [] [] 0 [⟨c2, some k⟩] = [(k, ((2 : ℚ) / 305, c2))] := by
      simp [buildTextScoresAux, tKey, mapGet, mapSet]
      norm_num
    have hf : fuseVecAux [(k, (3 : ℚ) / 305)] [] 0 [⟨c, some k⟩]
        = [(k, ((3 : ℚ) / 305, c))] := by
      simp [fuseVecAux, vKey, mapGet, mapSet]
    have hm : mergeTextAux [(k, ((3 : ℚ) / 305, c))] [(k, ((2 : ℚ) / 305, c2))]
        = [(k, ((1 : ℚ) / 61, if c = "" then c2 else c))] := by
      simp [mergeTextAux, mapGet, mapSet]
      norm_num
    rw [fuseLists]
    simp only [hv, ht, hf, hm]
    simp [sortDesc, insertDesc, take_all_single lim hlim]

/-- Concrete instance of claim C2. -/
theorem fusion_rank_weights_witness :
    buildVectorScoresAux [] 0 [⟨"a", some "x"⟩] = vTableFrom 0 [⟨"a", some "x"⟩] ∧
    buildTextScoresAux ["P1"] [] 0 [⟨"b", some "y"⟩]
      = tTableFrom ["P1"] 0 [⟨"b", some "y"⟩] ∧
    (fuseLists [] [⟨"c", some "k"⟩] [⟨"d", some "k"⟩] 4).map
        (fun r => (r.similarity, r.resourceId)) = [((1 : ℚ) / 61, some "k")] :=
  ⟨fusion_rank_weights.1 _ (by decide),
   fusion_rank_weights.2.1 _ _ (by decide),
   fusion_rank_weights.2.2 "c" "d" "k" 4 (by norm_num)⟩

/-- Claim C10 as amended: when the keys of the vector candidate list are
pairwise distinct and likewise for the lexical list, every fusion result has
similarity at most `0.6/61 + 0.8/61 = 1.4/61 = 7/305`, which is strictly
below the fixed fallback score `0.7`, itself strictly below the
short-circuit score `1.0` — so scores are not comparable across the three
return paths.  (Without the distinctness hypotheses the bound fails: a key
occurring at several ranks of the vector list has its accumulated vector
score added once per occurrence.) -/
theorem fusion_score_bounded (ids : List String) (vs : List VecHit) (ts : List Passage)
    (lim : Nat) (hv : (vKeysFrom 0 vs).Nodup) (ht : (tKeysFrom 0 ts).Nodup) :
    (∀ r ∈ fuseLists ids vs ts lim, r.similarity ≤ 7 / 305) ∧
    (7 : ℚ) / 305 < 7 / 10 ∧ (7 : ℚ) / 10 < 1 := by
  refine ⟨?_, by norm_num, by norm_num⟩
  intro r hr
  rw [fuseLists] at hr
  rcases List.mem_map.mp hr with ⟨e, he, rfl⟩
  have he2 : e ∈ sortDesc (mergeTextAux (fuseVecAux (buildVectorScoresAux [] 0 vs) [] 0 vs)
      (buildTextScoresAux ids [] 0 ts)) := List.take_subset _ _ he
  have he3 := (sortDesc_perm _).mem_iff.mp he2
  have hvt : buildVectorScoresAux [] 0 vs = vTableFrom 0 vs := by
    simpa using buildVectorScores_eq_table vs 0 [] hv (fun k _ => rfl)
  have hvsc : ∀ k : String, ((mapGet (buildVectorScoresAux [] 0 vs) k).getD 0 : ℚ) ≤ 3 / 305 := by
    intro k
    rw [hvt]
    cases hg : mapGet (vTableFrom 0 vs) k with
    | none => norm_num
    | some v =>
      simpa using vTable_value_le vs 0 _ (mapGet_some_mem _ _ _ hg)
  have hfm1 : ∀ e2 ∈ fuseVecAux (buildVectorScoresAux [] 0 vs) [] 0 vs, e2.2.1 ≤ 3 / 305 :=
    fuseVecAux_value_le _ vs hvsc 0 [] hv (by simp) (by simp)
  have htt : buildTextScoresAux ids [] 0 ts = tTableFrom ids 0 ts := by
    simpa using buildTextScores_eq_table ids ts 0 [] ht (fun k _ => rfl)
  have hfm2 : ∀ e2 ∈ mergeTextAux (fuseVecAux (buildVectorScoresAux [] 0 vs) [] 0 vs)
      (buildTextScoresAux ids [] 0 ts), e2.2.1 ≤ 7 / 305 := by
    rw [htt]
    apply mergeTextAux_value_le
    · rw [tTable_keys ids ts 0]
      exact ht
    · exact fun e2 he4 => tTable_value_le ids ts 0 e2 he4
    · intro e2 he4
      have := hfm1 e2 he4
      linarith
    · intro e2 he4 _
      exact hfm1 e2 he4
  exact hfm2 e he3

/-- Concrete instance of the amended claim C10. -/
theorem fusion_score_bounded_witness :
    (∀ r ∈ fuseLists [] [⟨"a", some "x"⟩] [⟨"b", some "y"⟩] 4, r.similarity ≤ 7 / 305) ∧
    (7 : ℚ) / 305 < 7 / 10 ∧ (7 : ℚ) / 10 < 1 :=
  fusion_score_bounded [] [⟨"a", some "x"⟩] [⟨"b", some "y"⟩] 4 (by decide) (by decide)

/-- Claim C10 counterexample: with two vector hits sharing the resource key
`k`, the fused score of `k` is `2 · (0.6/61 + 0.6/62) = 369/9455 ≈ 0.039`,
strictly above the claimed bound `1.4/61 = 7/305 ≈ 0.023` — and this run is
reachable through `findRelevantContent`'s fusion path. -/
theorem fusion_score_bound_cex :
    (fuseLists [] [⟨"A", some "k"⟩, ⟨"B", some "k"⟩] [] 4).map (fun r => r.similarity)
      = [(369 : ℚ) / 9455] ∧
    (7 : ℚ) / 305 < 369 / 9455 ∧
    findRelevantContent ⟨1, [], Except.ok (), fun _ _ =>
        Except.ok [⟨"A", some "k"⟩, ⟨"B", some "k"⟩]⟩ "query" 4
      = fuseLists [] [⟨"A", some "k"⟩, ⟨"B", some "k"⟩] [] 4 := by
  refine ⟨?_, by norm_num, rfl⟩
  simp [fuseLists, buildVectorScoresAux, buildTextScoresAux, fuseVecAux, mergeTextAux,
    vKey, tKey, mapGet, mapSet, sortDesc, insertDesc,
    take_all_single 4 (by norm_num)]
  norm_num
